import Mathlib

/-
Verification of the lattice graph engine (src/graph/traverse.ts and
src/storage/add.ts) against its design specification.

The TypeScript source is shallowly embedded: entities, edge references and
the node index become Lean structures and association lists, the recursive
traversal becomes a fuel-indexed total function (the fuel is exactly
maxDepth + 1 - depth, so the guard depth > maxDepth of the source becomes
fuel = 0), and JavaScript number coercion of version components is modelled
by an Option Int in which Option.none plays the role of NaN.
-/

set_option maxRecDepth 4000

namespace Lattice

/-- A version-bound edge reference (src/core/types.ts, interface
EdgeReference).  The optional rationale and strength fields are never read
by the graph engine and are omitted. -/
structure EdgeReference where
  target : String
  version : String
deriving DecidableEq, Repr

/-- A lattice entity (src/core/types.ts, LatticeNode / AnyLatticeNode),
restricted to the fields the graph engine reads: id, type, version and the
relationship buckets.  The edges field models the heterogeneous edges
record of thesis / requirement / implementation nodes as an ordered list of
(bucket name, edge list) pairs; Option.none models a node with no edges
property at all (for example a source node). -/
structure LatticeNode where
  id : String
  type : String
  version : String
  edges : Option (List (String × List EdgeReference))
deriving DecidableEq, Repr

/-- The node index, modelling a JavaScript Map with its insertion order:
an association list from identifier to entity. -/
abbrev NodeIndex := List (String × LatticeNode)

/-- Map.get: the value of the first (and, for maps built by set, only)
entry with the given key. -/
def mapGet (m : NodeIndex) (k : String) : Option LatticeNode :=
  (m.find? (fun p => p.1 == k)).map (fun p => p.2)

/-- Map.has: whether some entry carries the given key. -/
def containsKey (m : NodeIndex) (k : String) : Bool :=
  m.any (fun p => p.1 == k)

/-- Map.set: overwrite the value in place when the key is present
(JavaScript Map.set keeps the original insertion position), otherwise
append a fresh entry. -/
def mapSet (m : NodeIndex) (k : String) (v : LatticeNode) : NodeIndex :=
  if containsKey m k then m.map (fun p => if p.1 == k then (k, v) else p)
  else m ++ [(k, v)]

/-- buildNodeIndex (src/graph/traverse.ts lines 47-59).  The source obtains
the four entity collections from the external Node Store via
loadNodesByType; here they are passed as arguments.  The loop order of the
source - sources, theses, requirements, implementations, each collection in
order - is the fold order of the concatenation. -/
def buildNodeIndex (sources theses requirements implementations : List LatticeNode) :
    NodeIndex :=
  (sources ++ theses ++ requirements ++ implementations).foldl
    (fun index node => mapSet index node.id node) []

/-- getEdgeReferences (src/graph/traverse.ts lines 64-77): flatten the
relationship buckets of a node, bucket insertion order first, within-bucket
order second.  A node without an edges record yields the empty list. -/
def getEdgeReferences (node : LatticeNode) : List EdgeReference :=
  match node.edges with
  | Option.none => []
  | Option.some buckets => buckets.foldr (fun b acc => b.2 ++ acc) []

/-- Traversal direction (src/graph/traverse.ts line 13). -/
inductive TraversalDirection
  | upstream
  | downstream
  | both
deriving DecidableEq, Repr

/-- One recorded incident edge of a traversal result entry
(src/graph/traverse.ts, GraphNode.edges element shape). -/
structure GraphEdge where
  type : String
  target : String
  version : String
  direction : String
deriving DecidableEq, Repr

/-- A traversal result entry (src/graph/traverse.ts, interface GraphNode). -/
structure GraphNode where
  node : LatticeNode
  edges : List GraphEdge
deriving DecidableEq, Repr

/-- The incident edges recorded for one visited node (src/graph/traverse.ts
lines 100-131): outgoing edges from its own references when the direction
is downstream or both, then incoming edges found by scanning the whole
index when the direction is upstream or both.  The source pushes each edge
and recurses on its target immediately; since the pushed records do not
depend on traversal state they are computed here in one pass, and the
recursion targets are exactly the target fields of these records. -/
def nodeEdges (index : NodeIndex) (dir : TraversalDirection) (nodeId : String)
    (node : LatticeNode) : List GraphEdge :=
  (if dir = TraversalDirection.downstream ∨ dir = TraversalDirection.both then
    (getEdgeReferences node).map
      (fun r => { type := "outgoing", target := r.target,
                  version := r.version, direction := "outgoing" })
  else []) ++
  (if dir = TraversalDirection.upstream ∨ dir = TraversalDirection.both then
    index.foldr (fun p acc =>
      (if p.1 = nodeId then []
       else ((getEdgeReferences p.2).filter (fun r => r.target == nodeId)).map
         (fun r => { type := "incoming", target := p.1,
                     version := r.version, direction := "incoming" })) ++ acc) []
  else [])

/-- Mutable traversal state of the inner closure of traverseGraph: the
visited set (most recent first) and the accumulated result list. -/
structure TravState where
  visited : List String
  result : List GraphNode
deriving DecidableEq, Repr

/-- The inner recursive closure of traverseGraph (src/graph/traverse.ts
lines 91-134).  The fuel is maxDepth + 1 - depth, so the source guard
depth > maxDepth is exactly fuel = 0; the visited check, the visited
insertion before the index lookup, the post-order result push and the
recursion on each recorded edge target in order are all kept. -/
def go (index : NodeIndex) (dir : TraversalDirection) :
    Nat → String → TravState → TravState
  | 0, _, st => st
  | fuel + 1, nodeId, st =>
    if st.visited.contains nodeId then st
    else
      let st1 : TravState := ⟨nodeId :: st.visited, st.result⟩
      match mapGet index nodeId with
      | Option.none => st1
      | Option.some node =>
        let edges := nodeEdges index dir nodeId node
        let st2 := (edges.map (fun e => e.target)).foldl
          (fun s t => go index dir fuel t s) st1
        ⟨st2.visited, st2.result ++ [⟨node, edges⟩]⟩

/-- traverseGraph (src/graph/traverse.ts lines 82-138): run the closure on
the start identifier at depth 0, i.e. with fuel maxDepth + 1, from empty
state, and return the accumulated result. -/
def traverseGraph (startId : String) (index : NodeIndex)
    (dir : TraversalDirection) (maxDepth : Nat) : List GraphNode :=
  (go index dir (maxDepth + 1) startId ⟨[], []⟩).result

/-- A JavaScript number restricted to the values version components take:
Option.none models NaN, Option.some models an integer value. -/
abbrev JsNum := Option Int

/-- The value of a string of decimal digits, or Option.none when some
character is not a digit.  The empty list yields Option.some 0 and is
handled by the caller. -/
def decDigitsVal (cs : List Char) : Option Nat :=
  cs.foldl (fun acc c =>
    match acc with
    | Option.none => Option.none
    | Option.some v =>
      if c.isDigit then Option.some (v * 10 + (c.toNat - '0'.toNat))
      else Option.none) (Option.some 0)

/-- Strip whitespace from both ends of a character list. -/
def trimChars (cs : List Char) : List Char :=
  ((cs.dropWhile Char.isWhitespace).reverse.dropWhile Char.isWhitespace).reverse

/-- JavaScript Number on the character list of a string, restricted to the
forms a version component can denote an integer in: surrounding whitespace
is trimmed, the empty remainder is 0, an optional single sign followed by
decimal digits is the signed value, and anything else is NaN.  Other
JavaScript numeric literal forms (hexadecimal, exponent, fractions) are not
modelled; no claim evaluates the embedding on them. -/
def jsNumberOfChars (cs : List Char) : JsNum :=
  match trimChars cs with
  | [] => Option.some 0
  | '+' :: rest =>
    if rest.isEmpty then Option.none
    else (decDigitsVal rest).map (fun v => (v : Int))
  | '-' :: rest =>
    if rest.isEmpty then Option.none
    else (decDigitsVal rest).map (fun v => -(v : Int))
  | t => (decDigitsVal t).map (fun v => (v : Int))

/-- JavaScript Number on a string. -/
def jsNumber (s : String) : JsNum :=
  jsNumberOfChars s.toList

/-- Split a character list on the dot character, modelling the JavaScript
String.prototype.split of the source with separator a single dot: the empty
list yields one empty part, and every dot opens a new part. -/
def splitDots (cs : List Char) : List (List Char) :=
  cs.foldr (fun c acc =>
    if c = '.' then [] :: acc
    else
      match acc with
      | h :: t => (c :: h) :: t
      | [] => [[c]]) [[]]

/-- JavaScript strict greater-than on numbers: any comparison with NaN is
false. -/
def jsGt (a b : JsNum) : Bool :=
  match a, b with
  | Option.some x, Option.some y => y < x
  | _, _ => false

/-- A version string decomposed as in compareVersions (src/graph/traverse.ts
lines 149-154): split on the dot, coerce each part with Number, and default
the destructured components to 0 when the part is missing.  A present but
non-numeric part stays NaN: the destructuring default of the source applies
only to absent elements. -/
def decomposeVersion (v : String) : JsNum × JsNum × JsNum :=
  let parts := (splitDots v.toList).map jsNumberOfChars
  (parts.getD 0 (Option.some 0), parts.getD 1 (Option.some 0),
   parts.getD 2 (Option.some 0))

/-- Whether a string-or-undefined value is falsy in JavaScript: undefined
and the empty string are the falsy cases. -/
def jsFalsy (v : Option String) : Bool :=
  match v with
  | Option.none => true
  | Option.some s => s.isEmpty

/-- The severity returned by compareVersions (src/graph/traverse.ts line
146). -/
inductive Severity
  | none
  | patch
  | minor
  | major
deriving DecidableEq, Repr

/-- compareVersions (src/graph/traverse.ts lines 143-160): falsy arguments
yield Severity.none; otherwise the decomposed components are compared new
against old, major first, then minor, then patch, each check firing
independently of equality of the higher components. -/
def compareVersions (oldVersion newVersion : Option String) : Severity :=
  if jsFalsy oldVersion ∨ jsFalsy newVersion then Severity.none
  else
    let o := decomposeVersion (oldVersion.getD "")
    let n := decomposeVersion (newVersion.getD "")
    if jsGt n.1 o.1 then Severity.major
    else if jsGt n.2.1 o.2.1 then Severity.minor
    else if jsGt n.2.2 o.2.2 then Severity.patch
    else Severity.none

/-- One drift item of a report (src/graph/traverse.ts, DriftReport
driftItems element; the severity field of the source excludes
Severity.none, which the detector enforces with its filter). -/
structure DriftItem where
  edgeType : String
  targetId : String
  boundVersion : String
  currentVersion : String
  severity : Severity
deriving DecidableEq, Repr

/-- A drift report for one node (src/graph/traverse.ts, interface
DriftReport). -/
structure DriftReport where
  nodeId : String
  nodeType : String
  currentVersion : String
  driftItems : List DriftItem
deriving DecidableEq, Repr

/-- The drift items of one node (src/graph/traverse.ts lines 173-187):
for each edge reference, resolve the target in the index - skipping
dangling targets - compare the bound version against the target's current
version, and record the item when the severity is not Severity.none. -/
def driftItemsFor (index : NodeIndex) (node : LatticeNode) : List DriftItem :=
  (getEdgeReferences node).filterMap (fun ref =>
    match mapGet index ref.target with
    | Option.none => Option.none
    | Option.some targetNode =>
      let severity := compareVersions (Option.some ref.version)
        (Option.some targetNode.version)
      if severity = Severity.none then Option.none
      else Option.some ⟨"edge", ref.target, ref.version, targetNode.version,
        severity⟩)

/-- findDrift (src/graph/traverse.ts lines 165-200).  The source builds the
index itself from the lattice root via buildNodeIndex; the file loading is
the external Node Store, so the built index is passed here.  Every index
entry is examined in order and contributes a report exactly when it has at
least one drift item. -/
def findDrift (index : NodeIndex) : List DriftReport :=
  index.foldl (fun reports p =>
    let driftItems := driftItemsFor index p.2
    if driftItems.isEmpty then reports
    else reports ++ [⟨p.1, p.2.type, p.2.version, driftItems⟩]) []

/-- makeEdgeRefs (src/storage/add.ts lines 61-67): an absent or empty
target list yields undefined, and otherwise every target is paired with the
constant bound version 1.0.0 (the source comment: default to 1.0.0, will be
updated on verify). -/
def makeEdgeRefs (targets : Option (List String)) : Option (List EdgeReference) :=
  match targets with
  | Option.none => Option.none
  | Option.some ts =>
    if ts.isEmpty then Option.none
    else Option.some (ts.map (fun t => ⟨t, "1.0.0"⟩))

/-- Decomposition following the specification's words rather than the
source: missing OR non-numeric components default to 0.  Used to state the
specified classification a claim compares the code against. -/
def specDecompose (v : String) : Int × Int × Int :=
  let parts := (splitDots v.toList).map (fun cs => (jsNumberOfChars cs).getD 0)
  (parts.getD 0 0, parts.getD 1 0, parts.getD 2 0)

/-- Classification following the specification's case analysis verbatim:
Severity.major when current.major exceeds bound.major, Severity.minor when
the majors are equal and current.minor exceeds bound.minor, Severity.patch
when major and minor are equal and current.patch exceeds bound.patch, and
Severity.none otherwise (bound equal to or ahead of current). -/
def specClassify (bound current : String) : Severity :=
  let b := specDecompose bound
  let c := specDecompose current
  if c.1 > b.1 then Severity.major
  else if c.1 = b.1 ∧ c.2.1 > b.2.1 then Severity.minor
  else if c.1 = b.1 ∧ c.2.1 = b.2.1 ∧ c.2.2 > b.2.2 then Severity.patch
  else Severity.none

/-- The classification cascade the code actually performs on decomposed
components: each lower component is consulted whenever no higher component
fired, without requiring equality of the higher components, and any
comparison against a NaN component is false. -/
def codeClassify (bound current : JsNum × JsNum × JsNum) : Severity :=
  if jsGt current.1 bound.1 then Severity.major
  else if jsGt current.2.1 bound.2.1 then Severity.minor
  else if jsGt current.2.2 bound.2.2 then Severity.patch
  else Severity.none

/-- The identifiers the traversal recurses into from a node: the target
fields of the recorded incident edges, and nothing for an identifier that
does not resolve (the source returns before reading edges in that case). -/
def succList (index : NodeIndex) (dir : TraversalDirection) (a : String) :
    List String :=
  match mapGet index a with
  | Option.none => []
  | Option.some node => (nodeEdges index dir a node).map (fun e => e.target)

/-- Whether b lies within k hops of a along the traversal's edge-following
relation, i.e. the hop distance from a to b is at most k. -/
def reachesIn (index : NodeIndex) (dir : TraversalDirection) :
    Nat → String → String → Bool
  | 0, a, b => a == b
  | k + 1, a, b =>
    a == b || (succList index dir a).any (fun c => reachesIn index dir k c b)

/-- One traversal hop: b is a recursion target of a. -/
def Step (index : NodeIndex) (dir : TraversalDirection) (a b : String) : Prop :=
  b ∈ succList index dir a

/-- Unbounded reachability along traversal hops. -/
def Reaches (index : NodeIndex) (dir : TraversalDirection) (a b : String) : Prop :=
  Relation.ReflTransGen (Step index dir) a b

/-- A well-formed node index: every entry's key is the identifier of the
entity it carries.  Every index the source builds (buildNodeIndex keys each
node by node.id) satisfies this. -/
def WfIndex (index : NodeIndex) : Prop :=
  ∀ p ∈ index, p.2.id = p.1

instance decWfIndex (index : NodeIndex) : Decidable (WfIndex index) :=
  inferInstanceAs (Decidable (∀ p ∈ index, p.2.id = p.1))

/-- A traversal state extends another when its visited list and result list
are the old ones with material prepended respectively appended. -/
def StExtends (st st' : TravState) : Prop :=
  (∃ l, st'.visited = l ++ st.visited) ∧ (∃ l, st'.result = st.result ++ l)

/-- The fold of the traversal closure over a list of recursion targets. -/
def goFold (index : NodeIndex) (dir : TraversalDirection) (fuel : Nat)
    (ts : List String) (st : TravState) : TravState :=
  ts.foldl (fun s t => go index dir fuel t s) st

/-- The state produced by expanding an unvisited, resolvable node: visit it,
recurse on its edge targets, then push its result entry. -/
def goExpand (index : NodeIndex) (dir : TraversalDirection) (fuel : Nat)
    (n : String) (node : LatticeNode) (st : TravState) : TravState :=
  ⟨(goFold index dir fuel
      ((nodeEdges index dir n node).map (fun e => e.target))
      ⟨n :: st.visited, st.result⟩).visited,
   (goFold index dir fuel
      ((nodeEdges index dir n node).map (fun e => e.target))
      ⟨n :: st.visited, st.result⟩).result
     ++ [⟨node, nodeEdges index dir n node⟩]⟩

/-- The identifiers of the entities carried by a traversal result. -/
def resultIds (l : List GraphNode) : List String :=
  l.map (fun g => g.node.id)

/-- Invariant of the traversal state: result identifiers are distinct and
every result entry's identifier has been visited. -/
def ResultOK (st : TravState) : Prop :=
  (resultIds st.result).Nodup ∧ ∀ g ∈ st.result, g.node.id ∈ st.visited

/-- The set of keys of the index. -/
def keyset (index : NodeIndex) : Finset String :=
  (index.map Prod.fst).toFinset

/-- The number of index keys not yet visited: the termination-and-coverage
measure of the traversal when the depth bound does not prune. -/
def pending (index : NodeIndex) (st : TravState) : Nat :=
  (keyset index \ st.visited.toFinset).card

/-- Fixture: an implementation bound to version 2.0.0 of a target whose
current version is 1.1.0 (the bound is ahead of the current version). -/
def aheadSrc : LatticeNode :=
  ⟨"S", "implementation", "1.0.0",
   Option.some [("satisfies", [⟨"T", "2.0.0"⟩])]⟩

/-- Fixture: the target of aheadSrc, currently at version 1.1.0. -/
def aheadTgt : LatticeNode :=
  ⟨"T", "requirement", "1.1.0", Option.none⟩

/-- Fixture index for the bound-ahead drift scenario. -/
def aheadIdx : NodeIndex := [("S", aheadSrc), ("T", aheadTgt)]

/-- Fixture: an implementation with an edge to an identifier absent from
the index. -/
def danglingSrc : LatticeNode :=
  ⟨"S", "implementation", "1.0.0",
   Option.some [("satisfies", [⟨"GHOST", "1.0.0"⟩])]⟩

/-- Fixture index containing only danglingSrc, so its edge target is
dangling. -/
def danglingIdx : NodeIndex := [("S", danglingSrc)]

/-- Fixture: a drifted pair - an implementation bound at 1.0.0 whose target
has moved to 1.1.0. -/
def driftedSrc : LatticeNode :=
  ⟨"IMP-X", "implementation", "1.0.0",
   Option.some [("satisfies", [⟨"REQ-A", "1.0.0"⟩])]⟩

/-- Fixture: the drifted target, now at version 1.1.0. -/
def driftedTgt : LatticeNode :=
  ⟨"REQ-A", "requirement", "1.1.0", Option.none⟩

/-- Fixture index for the drifted scenario. -/
def driftedIdx : NodeIndex := [("IMP-X", driftedSrc), ("REQ-A", driftedTgt)]

/-- Fixture: a target entity whose current version is 2.0.0, for the edge
binding scenario. -/
def verTgt : LatticeNode := ⟨"T", "requirement", "2.0.0", Option.none⟩

/-- Fixture index containing verTgt. -/
def verIdx : NodeIndex := [("T", verTgt)]

/-- Fixture: chain node A with an edge to B. -/
def chainA : LatticeNode :=
  ⟨"A", "requirement", "1.0.0",
   Option.some [("depends_on", [⟨"B", "1.0.0"⟩])]⟩

/-- Fixture: chain node B with an edge to C. -/
def chainB : LatticeNode :=
  ⟨"B", "requirement", "1.0.0",
   Option.some [("depends_on", [⟨"C", "1.0.0"⟩])]⟩

/-- Fixture: chain node C with an edge to D. -/
def chainC : LatticeNode :=
  ⟨"C", "requirement", "1.0.0",
   Option.some [("depends_on", [⟨"D", "1.0.0"⟩])]⟩

/-- Fixture: chain node D with no edges. -/
def chainD : LatticeNode := ⟨"D", "requirement", "1.0.0", Option.none⟩

/-- Fixture index for the chain A to B to C to D. -/
def chainIdx : NodeIndex :=
  [("A", chainA), ("B", chainB), ("C", chainC), ("D", chainD)]

/-- Fixture: cycle node A pointing at B. -/
def cycA : LatticeNode :=
  ⟨"A", "thesis", "1.0.0",
   Option.some [("supported_by", [⟨"B", "1.0.0"⟩])]⟩

/-- Fixture: cycle node B pointing back at A. -/
def cycB : LatticeNode :=
  ⟨"B", "source", "1.0.0",
   Option.some [("challenges", [⟨"A", "1.0.0"⟩])]⟩

/-- Fixture index for the two-node cycle. -/
def cycIdx : NodeIndex := [("A", cycA), ("B", cycB)]

/-- Fixture: node A listing its edges to B then C, in that order. -/
def ordA1 : LatticeNode :=
  ⟨"A", "requirement", "1.0.0",
   Option.some [("depends_on", [⟨"B", "1.0.0"⟩, ⟨"C", "1.0.0"⟩])]⟩

/-- Fixture: the same node A listing its edges to C then B - the same edge
set in the opposite processing order. -/
def ordA2 : LatticeNode :=
  ⟨"A", "requirement", "1.0.0",
   Option.some [("depends_on", [⟨"C", "1.0.0"⟩, ⟨"B", "1.0.0"⟩])]⟩

/-- Fixture: node B with an edge to C. -/
def ordB : LatticeNode :=
  ⟨"B", "requirement", "1.0.0",
   Option.some [("depends_on", [⟨"C", "1.0.0"⟩])]⟩

/-- Fixture: node C with an edge to D. -/
def ordC : LatticeNode :=
  ⟨"C", "requirement", "1.0.0",
   Option.some [("depends_on", [⟨"D", "1.0.0"⟩])]⟩

/-- Fixture: node D with no edges. -/
def ordD : LatticeNode := ⟨"D", "requirement", "1.0.0", Option.none⟩

/-- Fixture index processing A's edges in the order B, C. -/
def ordIdx1 : NodeIndex :=
  [("A", ordA1), ("B", ordB), ("C", ordC), ("D", ordD)]

/-- Fixture index processing A's edges in the order C, B. -/
def ordIdx2 : NodeIndex :=
  [("A", ordA2), ("B", ordB), ("C", ordC), ("D", ordD)]

/-- Fixture: two distinct entities with distinct identifiers, for the index
completeness scenario. -/
def uniqX : LatticeNode := ⟨"X", "source", "1.0.0", Option.none⟩

/-- Fixture: second entity for the index completeness scenario. -/
def uniqY : LatticeNode := ⟨"Y", "thesis", "1.0.0", Option.none⟩

/-- Fixture: two entities sharing the identifier X, loaded in this order,
for the last-write-wins scenario. -/
def dupX1 : LatticeNode := ⟨"X", "source", "1.0.0", Option.none⟩

/-- Fixture: the later entity with the duplicate identifier X. -/
def dupX2 : LatticeNode := ⟨"X", "source", "2.0.0", Option.none⟩

theorem stExtends_refl (st : TravState) : StExtends st st :=
  ⟨⟨[], rfl⟩, ⟨[], (List.append_nil _).symm⟩⟩

theorem stExtends_trans {s t u : TravState} (h1 : StExtends s t)
    (h2 : StExtends t u) : StExtends s u := by
  obtain ⟨⟨l1, hv1⟩, ⟨r1, hr1⟩⟩ := h1
  obtain ⟨⟨l2, hv2⟩, ⟨r2, hr2⟩⟩ := h2
  exact ⟨⟨l2 ++ l1, by rw [hv2, hv1, List.append_assoc]⟩,
         ⟨r1 ++ r2, by rw [hr2, hr1, List.append_assoc]⟩⟩

theorem stExtends_visited_mem {s t : TravState} (h : StExtends s t) {x : String}
    (hx : x ∈ s.visited) : x ∈ t.visited := by
  obtain ⟨⟨l, hv⟩, _⟩ := h
  rw [hv]; exact List.mem_append_right _ hx

theorem stExtends_result_mem {s t : TravState} (h : StExtends s t)
    {g : GraphNode} (hg : g ∈ s.result) : g ∈ t.result := by
  obtain ⟨_, ⟨l, hr⟩⟩ := h
  rw [hr]; exact List.mem_append_left _ hg

theorem foldl_stExtends {α : Type} (f : TravState → α → TravState)
    (h : ∀ s a, StExtends s (f s a)) :
    ∀ (l : List α) (s : TravState), StExtends s (l.foldl f s) := by
  intro l
  induction l with
  | nil => intro s; exact stExtends_refl s
  | cons a l ih =>
    intro s
    exact stExtends_trans (h s a) (ih (f s a))

theorem go_zero (index : NodeIndex) (dir : TraversalDirection) (n : String)
    (st : TravState) : go index dir 0 n st = st := rfl

theorem go_succ (index : NodeIndex) (dir : TraversalDirection) (fuel : Nat)
    (n : String) (st : TravState) :
    go index dir (fuel + 1) n st =
      if st.visited.contains n then st
      else
        match mapGet index n with
        | Option.none => ⟨n :: st.visited, st.result⟩
        | Option.some node =>
          ⟨(((nodeEdges index dir n node).map (fun e => e.target)).foldl
              (fun s t => go index dir fuel t s)
              ⟨n :: st.visited, st.result⟩).visited,
           (((nodeEdges index dir n node).map (fun e => e.target)).foldl
              (fun s t => go index dir fuel t s)
              ⟨n :: st.visited, st.result⟩).result
             ++ [⟨node, nodeEdges index dir n node⟩]⟩ := rfl

theorem go_succ_visited {index : NodeIndex} {dir : TraversalDirection}
    {fuel : Nat} {n : String} {st : TravState}
    (hc : st.visited.contains n = true) :
    go index dir (fuel + 1) n st = st := by
  rw [go_succ, if_pos hc]

theorem go_succ_missing {index : NodeIndex} {dir : TraversalDirection}
    {fuel : Nat} {n : String} {st : TravState}
    (hc : st.visited.contains n = false)
    (hget : mapGet index n = Option.none) :
    go index dir (fuel + 1) n st = ⟨n :: st.visited, st.result⟩ := by
  rw [go_succ, if_neg (by simpa using hc), hget]

theorem go_succ_expand {index : NodeIndex} {dir : TraversalDirection}
    {fuel : Nat} {n : String} {st : TravState} {node : LatticeNode}
    (hc : st.visited.contains n = false)
    (hget : mapGet index n = Option.some node) :
    go index dir (fuel + 1) n st = goExpand index dir fuel n node st := by
  rw [go_succ, if_neg (by simpa using hc), hget]
  rfl

theorem go_stExtends (index : NodeIndex) (dir : TraversalDirection) :
    ∀ (fuel : Nat) (n : String) (st : TravState),
      StExtends st (go index dir fuel n st) := by
  intro fuel
  induction fuel with
  | zero => intro n st; exact stExtends_refl st
  | succ fuel ih =>
    intro n st
    rw [go_succ]
    split
    · exact stExtends_refl st
    · split
      · exact ⟨⟨[n], rfl⟩, ⟨[], (List.append_nil _).symm⟩⟩
      · rename_i node heq
        have h1 : StExtends st (⟨n :: st.visited, st.result⟩ : TravState) :=
          ⟨⟨[n], rfl⟩, ⟨[], (List.append_nil _).symm⟩⟩
        have h2 := foldl_stExtends (fun s t => go index dir fuel t s)
          (fun s t => ih t s)
          ((nodeEdges index dir n node).map (fun e => e.target))
          ⟨n :: st.visited, st.result⟩
        refine stExtends_trans (stExtends_trans h1 h2) ?_
        exact ⟨⟨[], rfl⟩, ⟨[⟨node, nodeEdges index dir n node⟩], rfl⟩⟩

theorem reachesIn_self (index : NodeIndex) (dir : TraversalDirection)
    (k : Nat) (a : String) : reachesIn index dir k a a = true := by
  cases k with
  | zero => simp [reachesIn]
  | succ k => simp [reachesIn]

theorem reachesIn_to_reaches (index : NodeIndex) (dir : TraversalDirection) :
    ∀ (k : Nat) (a b : String), reachesIn index dir k a b = true →
      Reaches index dir a b := by
  intro k
  induction k with
  | zero =>
    intro a b h
    simp only [reachesIn, beq_iff_eq] at h
    exact h ▸ Relation.ReflTransGen.refl
  | succ k ih =>
    intro a b h
    simp only [reachesIn, Bool.or_eq_true, beq_iff_eq, List.any_eq_true] at h
    rcases h with h | ⟨c, hc, hr⟩
    · exact h ▸ Relation.ReflTransGen.refl
    · exact Relation.ReflTransGen.head hc (ih c b hr)

theorem wf_mapGet {index : NodeIndex} (hwf : WfIndex index) {k : String}
    {node : LatticeNode} (h : mapGet index k = Option.some node) :
    node.id = k := by
  unfold mapGet at h
  cases hfind : index.find? (fun p => p.1 == k) with
  | none => rw [hfind] at h; simp at h
  | some p =>
    rw [hfind] at h
    simp only [Option.map_some'] at h
    have hmem : p ∈ index := List.mem_of_find?_eq_some hfind
    have hkey : p.1 = k := by
      have := List.find?_some hfind
      simpa using this
    have hpn : p.2 = node := by simpa using h
    rw [← hpn, hwf p hmem]
    exact hkey

theorem foldl_go_visited (index : NodeIndex) (dir : TraversalDirection)
    {fuel : Nat} (C : String → String → Prop)
    (h : ∀ t s x, x ∈ (go index dir fuel t s).visited → x ∈ s.visited ∨ C t x) :
    ∀ (ts : List String) (s : TravState) (x : String),
      x ∈ (ts.foldl (fun s t => go index dir fuel t s) s).visited →
      x ∈ s.visited ∨ ∃ t ∈ ts, C t x := by
  intro ts
  induction ts with
  | nil => intro s x hx; exact Or.inl hx
  | cons t ts ih =>
    intro s x hx
    simp only [List.foldl_cons] at hx
    rcases ih (go index dir fuel t s) x hx with hmem | ⟨u, hu, hc⟩
    · rcases h t s x hmem with hmem2 | hc
      · exact Or.inl hmem2
      · exact Or.inr ⟨t, List.mem_cons_self t ts, hc⟩
    · exact Or.inr ⟨u, List.mem_cons_of_mem _ hu, hc⟩

theorem go_visited_reach (index : NodeIndex) (dir : TraversalDirection) :
    ∀ (fuel : Nat) (n : String) (st : TravState) (x : String),
      x ∈ (go index dir fuel n st).visited →
      x ∈ st.visited ∨
        (1 ≤ fuel ∧ reachesIn index dir (fuel - 1) n x = true) := by
  intro fuel
  induction fuel with
  | zero =>
    intro n st x hx
    rw [go_zero] at hx
    exact Or.inl hx
  | succ fuel ih =>
    intro n st x hx
    rw [go_succ] at hx
    split at hx
    · exact Or.inl hx
    · split at hx
      · simp only [List.mem_cons] at hx
        rcases hx with rfl | hx
        · exact Or.inr ⟨Nat.le_add_left 1 fuel, reachesIn_self index dir fuel x⟩
        · exact Or.inl hx
      · rename_i node hget
        have hfold := foldl_go_visited index dir
          (fun t y => 1 ≤ fuel ∧ reachesIn index dir (fuel - 1) t y = true)
          (fun t s y hy => ih t s y hy)
          ((nodeEdges index dir n node).map (fun e => e.target))
          ⟨n :: st.visited, st.result⟩ x hx
        rcases hfold with hmem | ⟨t, ht, hf, hr⟩
        · simp only [List.mem_cons] at hmem
          rcases hmem with rfl | hmem
          · exact Or.inr ⟨Nat.le_add_left 1 fuel, reachesIn_self index dir fuel x⟩
          · exact Or.inl hmem
        · refine Or.inr ⟨Nat.le_add_left 1 fuel, ?_⟩
          obtain ⟨k, rfl⟩ : ∃ k, fuel = k + 1 :=
            ⟨fuel - 1, (Nat.succ_pred_eq_of_pos hf).symm⟩
          have hsucc : succList index dir n =
              (nodeEdges index dir n node).map (fun e => e.target) := by
            simp [succList, hget]
          simp only [Nat.add_sub_cancel] at hr ⊢
          simp only [reachesIn, Bool.or_eq_true, List.any_eq_true]
          exact Or.inr ⟨t, by rw [hsucc]; exact ht, hr⟩

theorem foldl_go_result (index : NodeIndex) (dir : TraversalDirection)
    {fuel : Nat} (C : String → GraphNode → Prop)
    (h : ∀ t s g, g ∈ (go index dir fuel t s).result → g ∈ s.result ∨ C t g) :
    ∀ (ts : List String) (s : TravState) (g : GraphNode),
      g ∈ (goFold index dir fuel ts s).result →
      g ∈ s.result ∨ ∃ t ∈ ts, C t g := by
  intro ts
  induction ts with
  | nil => intro s g hg; exact Or.inl hg
  | cons t ts ih =>
    intro s g hg
    simp only [goFold, List.foldl_cons] at hg
    rcases ih (go index dir fuel t s) g hg with hmem | ⟨u, hu, hc⟩
    · rcases h t s g hmem with hmem2 | hc
      · exact Or.inl hmem2
      · exact Or.inr ⟨t, List.mem_cons_self t ts, hc⟩
    · exact Or.inr ⟨u, List.mem_cons_of_mem _ hu, hc⟩

theorem go_result_src (index : NodeIndex) (dir : TraversalDirection) :
    ∀ (fuel : Nat) (n : String) (st : TravState) (g : GraphNode),
      g ∈ (go index dir fuel n st).result →
      g ∈ st.result ∨ ∃ k, mapGet index k = Option.some g.node ∧
        g.edges = nodeEdges index dir k g.node ∧
        1 ≤ fuel ∧ reachesIn index dir (fuel - 1) n k = true := by
  intro fuel
  induction fuel with
  | zero => intro n st g hg; rw [go_zero] at hg; exact Or.inl hg
  | succ fuel ih =>
    intro n st g hg
    cases hc : st.visited.contains n with
    | true => rw [go_succ_visited hc] at hg; exact Or.inl hg
    | false =>
      cases hget : mapGet index n with
      | none => rw [go_succ_missing hc hget] at hg; exact Or.inl hg
      | some node =>
        rw [go_succ_expand hc hget] at hg
        simp only [goExpand, List.mem_append] at hg
        rcases hg with hg | hg
        · rcases foldl_go_result index dir
            (fun t g => ∃ k, mapGet index k = Option.some g.node ∧
              g.edges = nodeEdges index dir k g.node ∧
              1 ≤ fuel ∧ reachesIn index dir (fuel - 1) t k = true)
            (fun t s g hgg => ih t s g hgg) _ _ g hg with
            hmem | ⟨t, ht, k, hk1, hk2, hf, hr⟩
          · exact Or.inl hmem
          · refine Or.inr ⟨k, hk1, hk2, Nat.le_add_left 1 fuel, ?_⟩
            obtain ⟨m, rfl⟩ : ∃ m, fuel = m + 1 :=
              ⟨fuel - 1, (Nat.succ_pred_eq_of_pos hf).symm⟩
            simp only [Nat.add_sub_cancel] at hr ⊢
            have hsucc : succList index dir n =
                (nodeEdges index dir n node).map (fun e => e.target) := by
              simp [succList, hget]
            simp only [reachesIn, Bool.or_eq_true, List.any_eq_true]
            exact Or.inr ⟨t, by rw [hsucc]; exact ht, hr⟩
        · simp only [List.mem_singleton] at hg
          subst hg
          exact Or.inr ⟨n, hget, rfl, Nat.le_add_left 1 fuel,
            reachesIn_self index dir fuel n⟩

theorem foldl_go_resultOK (index : NodeIndex) (dir : TraversalDirection)
    {fuel : Nat}
    (h : ∀ t s, ResultOK s → ResultOK (go index dir fuel t s) ∧
      ∀ g ∈ (go index dir fuel t s).result,
        g ∈ s.result ∨ g.node.id ∉ s.visited) :
    ∀ (ts : List String) (s : TravState), ResultOK s →
      ResultOK (goFold index dir fuel ts s) ∧
      ∀ g ∈ (goFold index dir fuel ts s).result,
        g ∈ s.result ∨ g.node.id ∉ s.visited := by
  intro ts
  induction ts with
  | nil => intro s hs; exact ⟨hs, fun g hg => Or.inl hg⟩
  | cons t ts ih =>
    intro s hs
    have h1 := h t s hs
    have h2 := ih (go index dir fuel t s) h1.1
    refine ⟨h2.1, ?_⟩
    intro g hg
    rcases h2.2 g hg with hmem | hnew
    · rcases h1.2 g hmem with hmem2 | hnew2
      · exact Or.inl hmem2
      · exact Or.inr hnew2
    · refine Or.inr (fun hmem => hnew ?_)
      exact stExtends_visited_mem (go_stExtends index dir fuel t s) hmem

theorem go_resultOK (index : NodeIndex) (dir : TraversalDirection)
    (hwf : WfIndex index) :
    ∀ (fuel : Nat) (n : String) (st : TravState), ResultOK st →
      ResultOK (go index dir fuel n st) ∧
      ∀ g ∈ (go index dir fuel n st).result,
        g ∈ st.result ∨ g.node.id ∉ st.visited := by
  intro fuel
  induction fuel with
  | zero => intro n st hst; rw [go_zero]; exact ⟨hst, fun g hg => Or.inl hg⟩
  | succ fuel ih =>
    intro n st hst
    cases hc : st.visited.contains n with
    | true => rw [go_succ_visited hc]; exact ⟨hst, fun g hg => Or.inl hg⟩
    | false =>
      have hnmem : n ∉ st.visited := by simpa using hc
      cases hget : mapGet index n with
      | none =>
        rw [go_succ_missing hc hget]
        exact ⟨⟨hst.1, fun g hg => List.mem_cons_of_mem _ (hst.2 g hg)⟩,
          fun g hg => Or.inl hg⟩
      | some node =>
        rw [go_succ_expand hc hget]
        have hst1 : ResultOK (⟨n :: st.visited, st.result⟩ : TravState) :=
          ⟨hst.1, fun g hg => List.mem_cons_of_mem _ (hst.2 g hg)⟩
        have hfold := foldl_go_resultOK index dir (fun t s hs => ih t s hs)
          ((nodeEdges index dir n node).map (fun e => e.target))
          ⟨n :: st.visited, st.result⟩ hst1
        have hid : node.id = n := wf_mapGet hwf hget
        have hnotin : ∀ g ∈ (goFold index dir fuel
            ((nodeEdges index dir n node).map (fun e => e.target))
            ⟨n :: st.visited, st.result⟩).result, g.node.id ≠ n := by
          intro g hg hgn
          rcases hfold.2 g hg with hmem | hnew
          · exact hnmem (hgn ▸ hst.2 g hmem)
          · exact hnew (hgn ▸ List.mem_cons_self n st.visited)
        have hstep : StExtends (⟨n :: st.visited, st.result⟩ : TravState)
            (goFold index dir fuel
              ((nodeEdges index dir n node).map (fun e => e.target))
              ⟨n :: st.visited, st.result⟩) :=
          foldl_stExtends _ (fun s a => go_stExtends index dir fuel a s) _ _
        refine ⟨⟨?_, ?_⟩, ?_⟩
        · simp only [goExpand, resultIds, List.map_append, List.map_cons,
            List.map_nil]
          rw [List.nodup_append]
          refine ⟨hfold.1.1, List.nodup_singleton _, ?_⟩
          intro a ha
          simp only [List.mem_map] at ha
          obtain ⟨g, hg, rfl⟩ := ha
          simp only [List.mem_singleton]
          intro hcontra
          exact hnotin g hg (by rw [hcontra, hid])
        · intro g hg
          simp only [goExpand, List.mem_append, List.mem_singleton] at hg
          rcases hg with hg | rfl
          · exact hfold.1.2 g hg
          · simp only [goExpand]
            rw [hid]
            exact stExtends_visited_mem hstep (List.mem_cons_self n st.visited)
        · intro g hg
          simp only [goExpand, List.mem_append, List.mem_singleton] at hg
          rcases hg with hg | rfl
          · rcases hfold.2 g hg with hmem | hnew
            · exact Or.inl hmem
            · exact Or.inr (fun hmem2 => hnew (List.mem_cons_of_mem _ hmem2))
          · exact Or.inr (by rw [hid]; exact hnmem)

theorem mapGet_isSome_iff (index : NodeIndex) (k : String) :
    (mapGet index k).isSome = true ↔ k ∈ index.map Prod.fst := by
  unfold mapGet
  rw [Option.isSome_map']
  rw [List.find?_isSome]
  constructor
  · rintro ⟨p, hp, hpk⟩
    exact List.mem_map.mpr ⟨p, hp, by simpa using hpk⟩
  · intro hk
    obtain ⟨p, hp, rfl⟩ := List.mem_map.mp hk
    exact ⟨p, hp, by simp⟩

theorem pending_lt {index : NodeIndex} {st : TravState} {n : String}
    (hk : n ∈ index.map Prod.fst) (hn : n ∉ st.visited) :
    pending index (⟨n :: st.visited, st.result⟩ : TravState) <
      pending index st := by
  unfold pending
  have hmem : n ∈ keyset index \ st.visited.toFinset := by
    rw [Finset.mem_sdiff]
    exact ⟨List.mem_toFinset.mpr hk, fun hc => hn (List.mem_toFinset.mp hc)⟩
  have hstep : keyset index \ (⟨n :: st.visited, st.result⟩ :
      TravState).visited.toFinset = (keyset index \ st.visited.toFinset).erase n := by
    show keyset index \ (n :: st.visited).toFinset = _
    rw [List.toFinset_cons, Finset.sdiff_insert]
  rw [hstep, Finset.card_erase_of_mem hmem]
  exact Nat.sub_lt (Finset.card_pos.mpr ⟨n, hmem⟩) Nat.one_pos

theorem pending_le_of_extends {index : NodeIndex} {s t : TravState}
    (h : StExtends s t) : pending index t ≤ pending index s := by
  unfold pending
  apply Finset.card_le_card
  apply Finset.sdiff_subset_sdiff (Finset.Subset.refl _)
  intro a ha
  simp only [List.mem_toFinset] at ha ⊢
  exact stExtends_visited_mem h ha

theorem foldl_go_complete (index : NodeIndex) (dir : TraversalDirection)
    {fuel : Nat}
    (hgo : ∀ t s, pending index s < fuel →
      t ∈ (go index dir fuel t s).visited ∧
      ∀ x ∈ (go index dir fuel t s).visited, x ∉ s.visited →
        ∀ y ∈ succList index dir x, y ∈ (go index dir fuel t s).visited) :
    ∀ (ts : List String) (s : TravState), pending index s < fuel →
      (∀ t ∈ ts, t ∈ (goFold index dir fuel ts s).visited) ∧
      ∀ x ∈ (goFold index dir fuel ts s).visited, x ∉ s.visited →
        ∀ y ∈ succList index dir x, y ∈ (goFold index dir fuel ts s).visited := by
  intro ts
  induction ts with
  | nil =>
    intro s hp
    refine ⟨by simp, ?_⟩
    intro x hx hnx
    exact absurd hx hnx
  | cons t ts ih =>
    intro s hp
    have h1 := hgo t s hp
    have hext1 : StExtends s (go index dir fuel t s) :=
      go_stExtends index dir fuel t s
    have h2 := ih (go index dir fuel t s)
      (lt_of_le_of_lt (pending_le_of_extends hext1) hp)
    have hext2 : StExtends (go index dir fuel t s)
        (goFold index dir fuel ts (go index dir fuel t s)) :=
      foldl_stExtends _ (fun s a => go_stExtends index dir fuel a s) ts _
    refine ⟨?_, ?_⟩
    · intro u hu
      rcases List.mem_cons.mp hu with rfl | hu
      · exact stExtends_visited_mem hext2 h1.1
      · exact h2.1 u hu
    · intro x hx hnx
      by_cases hx1 : x ∈ (go index dir fuel t s).visited
      · intro y hy
        exact stExtends_visited_mem hext2 (h1.2 x hx1 hnx y hy)
      · exact h2.2 x hx hx1

theorem go_complete (index : NodeIndex) (dir : TraversalDirection) :
    ∀ (fuel : Nat) (n : String) (st : TravState), pending index st < fuel →
      n ∈ (go index dir fuel n st).visited ∧
      ∀ x ∈ (go index dir fuel n st).visited, x ∉ st.visited →
        ∀ y ∈ succList index dir x, y ∈ (go index dir fuel n st).visited := by
  intro fuel
  induction fuel with
  | zero => intro n st hp; exact absurd hp (Nat.not_lt_zero _)
  | succ fuel ih =>
    intro n st hp
    cases hc : st.visited.contains n with
    | true =>
      rw [go_succ_visited hc]
      refine ⟨by simpa using hc, ?_⟩
      intro x hx hnx
      exact absurd hx hnx
    | false =>
      have hnmem : n ∉ st.visited := by simpa using hc
      cases hget : mapGet index n with
      | none =>
        rw [go_succ_missing hc hget]
        refine ⟨List.mem_cons_self n _, ?_⟩
        intro x hx hnx y hy
        rcases List.mem_cons.mp hx with rfl | hx2
        · simp [succList, hget] at hy
        · exact absurd hx2 hnx
      | some node =>
        rw [go_succ_expand hc hget]
        have hkmem : n ∈ index.map Prod.fst :=
          (mapGet_isSome_iff index n).mp (by rw [hget]; rfl)
        have hplt := pending_lt hkmem hnmem
        have hp1 : pending index (⟨n :: st.visited, st.result⟩ : TravState)
            < fuel := by omega
        have hfold := foldl_go_complete index dir (fun t s hps => ih t s hps)
          ((nodeEdges index dir n node).map (fun e => e.target))
          ⟨n :: st.visited, st.result⟩ hp1
        have hstep : StExtends (⟨n :: st.visited, st.result⟩ : TravState)
            (goFold index dir fuel
              ((nodeEdges index dir n node).map (fun e => e.target))
              ⟨n :: st.visited, st.result⟩) :=
          foldl_stExtends _ (fun s a => go_stExtends index dir fuel a s) _ _
        refine ⟨?_, ?_⟩
        · simp only [goExpand]
          exact stExtends_visited_mem hstep (List.mem_cons_self n _)
        · intro x hx hnx y hy
          simp only [goExpand] at hx ⊢
          by_cases hxn : x = n
          · subst hxn
            have hsucc : succList index dir x =
                (nodeEdges index dir x node).map (fun e => e.target) := by
              simp [succList, hget]
            rw [hsucc] at hy
            exact hfold.1 y hy
          · have hnx1 : x ∉ (⟨n :: st.visited, st.result⟩ :
                TravState).visited := by
              intro hmem
              rcases List.mem_cons.mp hmem with h1 | h1
              · exact hxn h1
              · exact hnx h1
            exact hfold.2 x hx hnx1 y hy

theorem foldl_go_visited_result (index : NodeIndex) (dir : TraversalDirection)
    {fuel : Nat}
    (h : ∀ t s x node, x ∈ (go index dir fuel t s).visited → x ∉ s.visited →
      mapGet index x = Option.some node →
      (⟨node, nodeEdges index dir x node⟩ : GraphNode) ∈
        (go index dir fuel t s).result) :
    ∀ (ts : List String) (s : TravState) (x : String) (node : LatticeNode),
      x ∈ (goFold index dir fuel ts s).visited → x ∉ s.visited →
      mapGet index x = Option.some node →
      (⟨node, nodeEdges index dir x node⟩ : GraphNode) ∈
        (goFold index dir fuel ts s).result := by
  intro ts
  induction ts with
  | nil => intro s x node hx hnx _; exact absurd hx hnx
  | cons t ts ih =>
    intro s x node hx hnx hget
    by_cases hx1 : x ∈ (go index dir fuel t s).visited
    · exact stExtends_result_mem
        (foldl_stExtends _ (fun s a => go_stExtends index dir fuel a s) ts _)
        (h t s x node hx1 hnx hget)
    · exact ih (go index dir fuel t s) x node hx hx1 hget

theorem go_visited_result (index : NodeIndex) (dir : TraversalDirection) :
    ∀ (fuel : Nat) (n : String) (st : TravState) (x : String)
      (node : LatticeNode),
      x ∈ (go index dir fuel n st).visited → x ∉ st.visited →
      mapGet index x = Option.some node →
      (⟨node, nodeEdges index dir x node⟩ : GraphNode) ∈
        (go index dir fuel n st).result := by
  intro fuel
  induction fuel with
  | zero => intro n st x node hx hnx _; rw [go_zero] at hx; exact absurd hx hnx
  | succ fuel ih =>
    intro n st x node hx hnx hget
    cases hc : st.visited.contains n with
    | true =>
      rw [go_succ_visited hc] at hx ⊢
      exact absurd hx hnx
    | false =>
      cases hget2 : mapGet index n with
      | none =>
        rw [go_succ_missing hc hget2] at hx ⊢
        rcases List.mem_cons.mp hx with rfl | hx2
        · rw [hget] at hget2
          exact absurd hget2 (by simp)
        · exact absurd hx2 hnx
      | some node2 =>
        rw [go_succ_expand hc hget2] at hx ⊢
        simp only [goExpand] at hx ⊢
        rw [List.mem_append]
        by_cases hxn : x = n
        · subst hxn
          right
          have hnn : node = node2 := by
            rw [hget] at hget2
            exact (Option.some.injEq _ _).mp hget2
          subst hnn
          exact List.mem_singleton.mpr rfl
        · left
          have hnx1 : x ∉ (⟨n :: st.visited, st.result⟩ :
              TravState).visited := by
            intro hmem
            rcases List.mem_cons.mp hmem with h1 | h1
            · exact hxn h1
            · exact hnx h1
          exact foldl_go_visited_result index dir
            (fun t s x node hx hnx hget => ih t s x node hx hnx hget)
            ((nodeEdges index dir n node2).map (fun e => e.target))
            ⟨n :: st.visited, st.result⟩ x node hx hnx1 hget

theorem mapGet_cons (p : String × LatticeNode) (m : NodeIndex) (k : String) :
    mapGet (p :: m) k =
      if p.1 == k then Option.some p.2 else mapGet m k := by
  cases hp : (p.1 == k) <;> simp [mapGet, List.find?_cons, hp]

theorem mapGet_map_upd_ne (k : String) (v : LatticeNode) :
    ∀ (m : NodeIndex) (q : String), q ≠ k →
      mapGet (m.map (fun p => if p.1 == k then (k, v) else p)) q =
        mapGet m q := by
  intro m
  induction m with
  | nil => intro q _; rfl
  | cons p m ih =>
    intro q hq
    have hqk : ¬((k == q) = true) := by
      simp only [beq_iff_eq]
      exact fun h => hq h.symm
    simp only [List.map_cons]
    by_cases hp1 : p.1 = k
    · rw [if_pos (by simpa using hp1), mapGet_cons, mapGet_cons,
        if_neg hqk,
        if_neg (by simp only [hp1, beq_iff_eq]; exact fun h => hq h.symm)]
      exact ih q hq
    · rw [if_neg (by simpa using hp1), mapGet_cons, mapGet_cons]
      by_cases hpq : p.1 = q
      · rw [if_pos (by simpa using hpq), if_pos (by simpa using hpq)]
      · rw [if_neg (by simpa using hpq), if_neg (by simpa using hpq)]
        exact ih q hq

theorem mapGet_map_upd_eq (k : String) (v : LatticeNode) :
    ∀ (m : NodeIndex), containsKey m k = true →
      mapGet (m.map (fun p => if p.1 == k then (k, v) else p)) k =
        Option.some v := by
  intro m
  induction m with
  | nil => intro h; simp [containsKey] at h
  | cons p m ih =>
    intro h
    simp only [List.map_cons]
    by_cases hp1 : p.1 = k
    · rw [if_pos (by simpa using hp1), mapGet_cons, if_pos (by simp)]
    · rw [if_neg (by simpa using hp1), mapGet_cons,
        if_neg (by simpa using hp1)]
      apply ih
      have hb : (p.1 == k) = false := by simpa using hp1
      simp only [containsKey, List.any_cons, hb, Bool.false_or] at h
      exact h

theorem mapGet_of_not_contains {m : NodeIndex} {k : String}
    (h : containsKey m k = false) : mapGet m k = Option.none := by
  unfold mapGet
  rw [List.find?_eq_none.mpr]
  · rfl
  · intro p hp
    simp only [containsKey, List.any_eq_false] at h
    simpa using h p hp

theorem mapGet_append_single (k : String) (v : LatticeNode) :
    ∀ (m : NodeIndex) (q : String),
      mapGet (m ++ [(k, v)]) q =
        match mapGet m q with
        | Option.some x => Option.some x
        | Option.none => if k == q then Option.some v else Option.none := by
  intro m
  induction m with
  | nil =>
    intro q
    simp only [List.nil_append, mapGet_cons]
    rfl
  | cons p m ih =>
    intro q
    simp only [List.cons_append, mapGet_cons]
    cases hpq : (p.1 == q) with
    | true => simp
    | false => simpa using ih q

theorem mapGet_mapSet (m : NodeIndex) (k : String) (v : LatticeNode)
    (q : String) :
    mapGet (mapSet m k v) q = if q = k then Option.some v else mapGet m q := by
  unfold mapSet
  cases hck : containsKey m k with
  | true =>
    rw [if_pos rfl]
    by_cases hqk : q = k
    · subst hqk
      rw [if_pos rfl]
      exact mapGet_map_upd_eq q v m hck
    · rw [if_neg hqk]
      exact mapGet_map_upd_ne k v m q hqk
  | false =>
    rw [if_neg (by simp)]
    rw [mapGet_append_single k v m q]
    by_cases hqk : q = k
    · subst hqk
      rw [mapGet_of_not_contains hck, if_pos rfl]
      simp
    · rw [if_neg hqk]
      cases hmq : mapGet m q with
      | none => rw [if_neg (by simpa using (fun h => hqk h.symm))]
      | some x => rfl

theorem keys_map_upd (k : String) (v : LatticeNode) (m : NodeIndex) :
    (m.map (fun p => if p.1 == k then (k, v) else p)).map Prod.fst =
      m.map Prod.fst := by
  induction m with
  | nil => rfl
  | cons p m ih =>
    simp only [List.map_cons]
    by_cases hp1 : p.1 = k
    · rw [if_pos (by simpa using hp1)]
      rw [ih, hp1]
    · rw [if_neg (by simpa using hp1)]
      rw [ih]

theorem containsKey_keys (m : NodeIndex) (q : String) :
    containsKey m q = (m.map Prod.fst).any (fun a => a == q) := by
  induction m with
  | nil => rfl
  | cons p m ih => simp [containsKey, List.any_cons] at ih ⊢; rw [ih]

theorem containsKey_mapSet (m : NodeIndex) (k : String) (v : LatticeNode)
    (q : String) :
    containsKey (mapSet m k v) q = (containsKey m q || (k == q)) := by
  unfold mapSet
  cases hck : containsKey m k with
  | true =>
    rw [if_pos rfl, containsKey_keys, keys_map_upd, ← containsKey_keys]
    cases hkq : (k == q) with
    | true =>
      have : k = q := by simpa using hkq
      subst this
      simp [hck]
    | false => simp
  | false =>
    rw [if_neg (by simp)]
    simp [containsKey, List.any_append]

theorem length_mapSet (m : NodeIndex) (k : String) (v : LatticeNode) :
    (mapSet m k v).length =
      if containsKey m k then m.length else m.length + 1 := by
  unfold mapSet
  cases hck : containsKey m k with
  | true => simp
  | false => simp

theorem build_foldl_get :
    ∀ (L : List LatticeNode) (m : NodeIndex) (k : String),
      mapGet (L.foldl (fun acc node => mapSet acc node.id node) m) k =
        match (L.filter (fun n => n.id == k)).getLast? with
        | Option.some n => Option.some n
        | Option.none => mapGet m k := by
  intro L
  induction L with
  | nil => intro m k; rfl
  | cons n L ih =>
    intro m k
    simp only [List.foldl_cons]
    rw [ih (mapSet m n.id n) k, List.filter_cons]
    by_cases hnk : n.id = k
    · rw [if_pos (by simpa using hnk)]
      cases hl : L.filter (fun x => x.id == k) with
      | nil =>
        rw [mapGet_mapSet]
        rw [if_pos hnk.symm]
        rfl
      | cons b bl =>
        rw [List.getLast?_cons_cons]
        obtain ⟨a, ha⟩ : ∃ a, (b :: bl).getLast? = Option.some a := by
          cases h : (b :: bl).getLast? with
          | none => exact absurd h (by simp)
          | some a => exact ⟨a, rfl⟩
        rw [ha]
    · rw [if_neg (by simpa using hnk)]
      cases hl : (L.filter (fun x => x.id == k)).getLast? with
      | some a => rfl
      | none =>
        rw [mapGet_mapSet, if_neg (fun h => hnk h.symm)]

theorem build_foldl_length :
    ∀ (L : List LatticeNode) (m : NodeIndex),
      (L.map (fun n => n.id)).Nodup →
      (∀ n ∈ L, containsKey m n.id = false) →
      (L.foldl (fun acc node => mapSet acc node.id node) m).length =
        m.length + L.length := by
  intro L
  induction L with
  | nil => intro m _ _; simp
  | cons n L ih =>
    intro m hnd hdisj
    simp only [List.map_cons, List.nodup_cons] at hnd
    obtain ⟨hnotin, htail⟩ := hnd
    simp only [List.foldl_cons, List.length_cons]
    have hc : containsKey m n.id = false := hdisj n (List.mem_cons_self n L)
    have hlen : (mapSet m n.id n).length = m.length + 1 := by
      rw [length_mapSet, if_neg (by simp [hc])]
    rw [ih (mapSet m n.id n) htail ?_, hlen]
    · omega
    · intro x hx
      rw [containsKey_mapSet]
      have h1 : containsKey m x.id = false := hdisj x (List.mem_cons_of_mem _ hx)
      have h2 : (n.id == x.id) = false := by
        simp only [beq_eq_false_iff_ne, ne_eq]
        intro hcontra
        exact hnotin (hcontra ▸ List.mem_map.mpr ⟨x, hx, rfl⟩)
      rw [h1, h2]
      rfl

theorem filter_nodup_eq_single :
    ∀ (L : List LatticeNode) (n : LatticeNode),
      (L.map (fun x => x.id)).Nodup → n ∈ L →
      L.filter (fun x => x.id == n.id) = [n] := by
  intro L
  induction L with
  | nil => intro n _ h; simp at h
  | cons x L ih =>
    intro n hnd hmem
    simp only [List.map_cons, List.nodup_cons] at hnd
    obtain ⟨hxnotin, hLnd⟩ := hnd
    rw [List.filter_cons]
    by_cases hx : x.id = n.id
    · rw [if_pos (by simpa using hx)]
      have hnil : L.filter (fun y => y.id == n.id) = [] := by
        rw [List.filter_eq_nil_iff]
        intro y hy
        simp only [beq_iff_eq]
        intro hyn
        exact hxnotin (by rw [hx, ← hyn]; exact List.mem_map.mpr ⟨y, hy, rfl⟩)
      rw [hnil]
      rcases List.mem_cons.mp hmem with rfl | hnL
      · rfl
      · exact absurd (by rw [hx]; exact List.mem_map.mpr ⟨n, hnL, rfl⟩) hxnotin
    · rw [if_neg (by simpa using hx)]
      rcases List.mem_cons.mp hmem with rfl | hnL
      · exact absurd rfl hx
      · exact ih n hLnd hnL

theorem findDrift_reports (index : NodeIndex) :
    ∀ r ∈ findDrift index, ∃ p ∈ index,
      r = ⟨p.1, p.2.type, p.2.version, driftItemsFor index p.2⟩ ∧
      driftItemsFor index p.2 ≠ [] := by
  have h : ∀ (l : List (String × LatticeNode)) (acc : List DriftReport),
      ∀ r ∈ l.foldl (fun reports p =>
        if (driftItemsFor index p.2).isEmpty then reports
        else reports ++ [⟨p.1, p.2.type, p.2.version, driftItemsFor index p.2⟩])
        acc,
      r ∈ acc ∨ ∃ p ∈ l,
        r = ⟨p.1, p.2.type, p.2.version, driftItemsFor index p.2⟩ ∧
        driftItemsFor index p.2 ≠ [] := by
    intro l
    induction l with
    | nil => intro acc r hr; exact Or.inl hr
    | cons p l ih =>
      intro acc r hr
      simp only [List.foldl_cons] at hr
      rcases ih _ r hr with hin | ⟨q, hq, hrq⟩
      · by_cases he : (driftItemsFor index p.2).isEmpty = true
        · rw [if_pos he] at hin
          exact Or.inl hin
        · rw [if_neg he] at hin
          rcases List.mem_append.mp hin with hin | hin
          · exact Or.inl hin
          · refine Or.inr ⟨p, List.mem_cons_self p l,
              List.mem_singleton.mp hin, ?_⟩
            intro hnil
            exact he (by rw [hnil]; rfl)
      · exact Or.inr ⟨q, List.mem_cons_of_mem _ hq, hrq⟩
  intro r hr
  rcases h index [] r hr with hin | hex
  · simp at hin
  · exact hex

theorem driftItemsFor_spec (index : NodeIndex) (node : LatticeNode) :
    ∀ item ∈ driftItemsFor index node, ∃ tn,
      mapGet index item.targetId = Option.some tn ∧
      item.currentVersion = tn.version ∧
      item.severity = compareVersions (Option.some item.boundVersion)
        (Option.some item.currentVersion) ∧
      item.severity ≠ Severity.none ∧ item.edgeType = "edge" := by
  intro item hitem
  unfold driftItemsFor at hitem
  rw [List.mem_filterMap] at hitem
  obtain ⟨ref, href, hf⟩ := hitem
  have hf2 : (match mapGet index ref.target with
      | Option.none => Option.none
      | Option.some targetNode =>
        if compareVersions (Option.some ref.version)
            (Option.some targetNode.version) = Severity.none
        then Option.none
        else Option.some (⟨"edge", ref.target, ref.version,
          targetNode.version,
          compareVersions (Option.some ref.version)
            (Option.some targetNode.version)⟩ : DriftItem)) =
      Option.some item := hf
  cases hmg : mapGet index ref.target with
  | none =>
    rw [hmg] at hf2
    exact absurd hf2 (by simp)
  | some tn =>
    rw [hmg] at hf2
    simp only at hf2
    by_cases hsev : compareVersions (Option.some ref.version)
        (Option.some tn.version) = Severity.none
    · rw [if_pos hsev] at hf2
      exact absurd hf2 (by simp)
    · rw [if_neg hsev] at hf2
      have heq := (Option.some.injEq _ _).mp hf2
      subst heq
      exact ⟨tn, hmg, rfl, rfl, hsev, rfl⟩

theorem compareVersions_eq_code {a b : String} (ha : a ≠ "") (hb : b ≠ "") :
    compareVersions (Option.some a) (Option.some b) =
      codeClassify (decomposeVersion a) (decomposeVersion b) := by
  unfold compareVersions codeClassify
  rw [if_neg (by
    intro hfal
    rcases hfal with hfa | hfa
    · exact ha ((String.isEmpty_iff a).mp hfa)
    · exact hb ((String.isEmpty_iff b).mp hfa))]
  rfl

theorem compareVersions_nonempty {o n : Option String}
    (h : compareVersions o n ≠ Severity.none) :
    ∃ a b, o = Option.some a ∧ n = Option.some b ∧ a ≠ "" ∧ b ≠ "" := by
  unfold compareVersions at h
  by_cases hf : (jsFalsy o = true ∨ jsFalsy n = true)
  · rw [if_pos hf] at h
    exact absurd rfl h
  · push_neg at hf
    obtain ⟨h1, h2⟩ := hf
    cases o with
    | none => exact absurd rfl h1
    | some a =>
      cases n with
      | none => exact absurd rfl h2
      | some b =>
        refine ⟨a, b, rfl, rfl, ?_, ?_⟩
        · intro hae
          exact h1 (by rw [hae]; rfl)
        · intro hbe
          exact h2 (by rw [hbe]; rfl)

theorem codeClassify_major_iff (b c : JsNum × JsNum × JsNum) :
    codeClassify b c = Severity.major ↔ jsGt c.1 b.1 = true := by
  unfold codeClassify
  split_ifs with h1 h2 h3 <;> simp_all

theorem codeClassify_minor_iff (b c : JsNum × JsNum × JsNum) :
    codeClassify b c = Severity.minor ↔
      (jsGt c.1 b.1 = false ∧ jsGt c.2.1 b.2.1 = true) := by
  unfold codeClassify
  split_ifs with h1 h2 h3 <;> simp_all

theorem codeClassify_patch_iff (b c : JsNum × JsNum × JsNum) :
    codeClassify b c = Severity.patch ↔
      (jsGt c.1 b.1 = false ∧ jsGt c.2.1 b.2.1 = false ∧
        jsGt c.2.2 b.2.2 = true) := by
  unfold codeClassify
  split_ifs with h1 h2 h3 <;> simp_all

theorem jsGt_some_iff (x y : Int) :
    jsGt (Option.some x) (Option.some y) = true ↔ y < x := by
  simp [jsGt]

theorem jsGt_none_left (b : JsNum) : jsGt Option.none b = false := rfl

theorem jsGt_none_right (a : JsNum) : jsGt a Option.none = false := by
  cases a <;> rfl

theorem jsGt_true_numeric {a b : JsNum} (h : jsGt a b = true) :
    ∃ x y : Int, a = Option.some x ∧ b = Option.some y ∧ y < x := by
  cases a with
  | none => simp [jsGt] at h
  | some x =>
    cases b with
    | none => simp [jsGt] at h
    | some y =>
      exact ⟨x, y, rfl, rfl, by simpa [jsGt] using h⟩

/-- C4, counterexample: makeEdgeRefs binds the edge to the constant version
1.0.0 even when the target entity's current version is 2.0.0, so the bound
version does not equal the target's current version at creation. -/
theorem c4_counterexample :
    makeEdgeRefs (Option.some ["T"]) =
      Option.some [(⟨"T", "1.0.0"⟩ : EdgeReference)] ∧
    mapGet verIdx "T" = Option.some verTgt ∧
    verTgt.version = "2.0.0" ∧ ("1.0.0" : String) ≠ "2.0.0" := by
  refine ⟨by decide, by decide, by decide, by decide⟩

/-- C4, amended: whenever the add operations create edge references, every
created edge carries the constant bound version 1.0.0 - a default recorded
regardless of the target's current version - and an absent or empty target
list produces no edge list at all. -/
theorem c4_amended_constant :
    (∀ (targets : List String) (ts : List EdgeReference),
      makeEdgeRefs (Option.some targets) = Option.some ts →
      ts = targets.map (fun t => ⟨t, "1.0.0"⟩) ∧
      ∀ e ∈ ts, e.version = "1.0.0") ∧
    makeEdgeRefs Option.none = Option.none ∧
    makeEdgeRefs (Option.some []) = Option.none := by
  refine ⟨?_, rfl, rfl⟩
  intro targets ts h
  have h2 : (if targets.isEmpty = true then Option.none
      else Option.some (targets.map
        (fun t => (⟨t, "1.0.0"⟩ : EdgeReference)))) = Option.some ts := h
  by_cases he : targets.isEmpty = true
  · rw [if_pos he] at h2
    exact absurd h2 (by simp)
  · rw [if_neg he] at h2
    have hts : ts = targets.map (fun t => ⟨t, "1.0.0"⟩) :=
      ((Option.some.injEq _ _).mp h2).symm
    refine ⟨hts, ?_⟩
    intro e hee
    rw [hts] at hee
    obtain ⟨t, _, rfl⟩ := List.mem_map.mp hee
    rfl

/-- C4, witness for the amended theorem at a concrete target list. -/
theorem c4_amended_constant_witness :
    [(⟨"T", "1.0.0"⟩ : EdgeReference)] = ["T"].map (fun t => ⟨t, "1.0.0"⟩) ∧
    ∀ e ∈ [(⟨"T", "1.0.0"⟩ : EdgeReference)], e.version = "1.0.0" :=
  c4_amended_constant.1 ["T"] [⟨"T", "1.0.0"⟩] (by decide)

/-- C5: a node not reachable within d hops of the start is neither visited
nor included in the result of a traversal bounded by d; and on the concrete
chain A to B to C to D, depth 1 includes A and B but excludes C and D, and
depth 2 additionally includes C but still excludes D. -/
theorem c5_depth_bound :
    (∀ (index : NodeIndex) (dir : TraversalDirection) (start : String)
      (d : Nat) (x : String), WfIndex index →
      reachesIn index dir d start x = false →
      x ∉ (go index dir (d + 1) start ⟨[], []⟩).visited ∧
      ∀ g ∈ traverseGraph start index dir d, g.node.id ≠ x) ∧
    (∃ g ∈ traverseGraph "A" chainIdx TraversalDirection.downstream 1,
      g.node.id = "A") ∧
    (∃ g ∈ traverseGraph "A" chainIdx TraversalDirection.downstream 1,
      g.node.id = "B") ∧
    (∀ g ∈ traverseGraph "A" chainIdx TraversalDirection.downstream 1,
      g.node.id ≠ "C" ∧ g.node.id ≠ "D") ∧
    (∃ g ∈ traverseGraph "A" chainIdx TraversalDirection.downstream 2,
      g.node.id = "C") ∧
    (∀ g ∈ traverseGraph "A" chainIdx TraversalDirection.downstream 2,
      g.node.id ≠ "D") := by
  refine ⟨?_, by decide, by decide, by decide, by decide, by decide⟩
  intro index dir start d x hwf hreach
  constructor
  · intro hx
    rcases go_visited_reach index dir (d + 1) start ⟨[], []⟩ x hx with
      hmem | ⟨_, hr⟩
    · exact List.not_mem_nil x hmem
    · rw [Nat.add_sub_cancel] at hr
      rw [hreach] at hr
      cases hr
  · intro g hg hgx
    rcases go_result_src index dir (d + 1) start ⟨[], []⟩ g hg with
      hmem | ⟨k, hk, _, _, hr⟩
    · exact List.not_mem_nil g hmem
    · rw [Nat.add_sub_cancel] at hr
      have hkx : k = x := by rw [← hgx, wf_mapGet hwf hk]
      rw [hkx, hreach] at hr
      cases hr

/-- C5, witness for the quantified part at the concrete chain. -/
theorem c5_depth_bound_witness :
    WfIndex chainIdx ∧
    reachesIn chainIdx TraversalDirection.downstream 1 "A" "D" = false ∧
    ∀ g ∈ traverseGraph "A" chainIdx TraversalDirection.downstream 1,
      g.node.id ≠ "D" :=
  ⟨by decide, by decide,
    (c5_depth_bound.1 chainIdx TraversalDirection.downstream "A" 1 "D"
      (by decide) (by decide)).2⟩

/-- C6: the traversal is a total function (the embedding is structurally
recursive on the depth fuel, mirroring the source's bounded recursion), and
under a well-formed index every identifier occurs at most once among the
result entries; on the concrete two-node cycle, traverse of A in both
directions with depth 10 contains each of A and B exactly once. -/
theorem c6_cycle_termination :
    (∀ (index : NodeIndex) (dir : TraversalDirection) (start : String)
      (d : Nat), WfIndex index →
      (resultIds (traverseGraph start index dir d)).Nodup) ∧
    (resultIds (traverseGraph "A" cycIdx TraversalDirection.both 10)).count
      "A" = 1 ∧
    (resultIds (traverseGraph "A" cycIdx TraversalDirection.both 10)).count
      "B" = 1 := by
  refine ⟨?_, by decide, by decide⟩
  intro index dir start d hwf
  have h := go_resultOK index dir hwf (d + 1) start ⟨[], []⟩
    ⟨List.nodup_nil, fun g hg => absurd hg (List.not_mem_nil g)⟩
  exact h.1.1

/-- C6, witness for the quantified part on the concrete cycle. -/
theorem c6_cycle_termination_witness :
    WfIndex cycIdx ∧
    (resultIds (traverseGraph "A" cycIdx TraversalDirection.both 10)).Nodup :=
  ⟨by decide,
    c6_cycle_termination.1 cycIdx TraversalDirection.both "A" 10 (by decide)⟩

/-- C7: when the start identifier resolves, the start node appears in the
result carrying exactly its own incident edges; when it does not resolve,
the traversal returns the empty result (and, being a total function, raises
no error). -/
theorem c7_start_handling :
    ∀ (index : NodeIndex) (dir : TraversalDirection) (startId : String)
      (d : Nat),
      (mapGet index startId = Option.none →
        traverseGraph startId index dir d = []) ∧
      (∀ node, mapGet index startId = Option.some node →
        (⟨node, nodeEdges index dir startId node⟩ : GraphNode) ∈
          traverseGraph startId index dir d) := by
  intro index dir startId d
  have hc : (⟨[], []⟩ : TravState).visited.contains startId = false := rfl
  constructor
  · intro h
    unfold traverseGraph
    rw [go_succ_missing hc h]
  · intro node h
    unfold traverseGraph
    rw [go_succ_expand hc h]
    exact List.mem_append_right _ (List.mem_singleton.mpr rfl)

/-- C7, witness: the missing start MISSING-ID yields the empty result on a
concrete index, and the resolving start A yields its entry with its own
edges. -/
theorem c7_start_handling_witness :
    (mapGet cycIdx "MISSING-ID" = Option.none ∧
      traverseGraph "MISSING-ID" cycIdx TraversalDirection.both 3 = []) ∧
    (mapGet cycIdx "A" = Option.some cycA ∧
      (⟨cycA, nodeEdges cycIdx TraversalDirection.both "A" cycA⟩ :
        GraphNode) ∈ traverseGraph "A" cycIdx TraversalDirection.both 3) :=
  ⟨⟨by decide,
    (c7_start_handling cycIdx TraversalDirection.both "MISSING-ID" 3).1
      (by decide)⟩,
   ⟨by decide,
    (c7_start_handling cycIdx TraversalDirection.both "A" 3).2 cycA
      (by decide)⟩⟩

/-- C8: every drift item of every report names a target that resolves in
the index - an edge with a dangling target contributes no drift item - and
the detector, being a total function, does not fail; on the concrete index
whose only edge dangles, findDrift returns no report at all. -/
theorem c8_dangling_skipped :
    (∀ (index : NodeIndex), ∀ r ∈ findDrift index, ∀ item ∈ r.driftItems,
      (mapGet index item.targetId).isSome = true) ∧
    findDrift danglingIdx = [] := by
  refine ⟨?_, by decide⟩
  intro index r hr item hitem
  obtain ⟨p, _, rfl, _⟩ := findDrift_reports index r hr
  obtain ⟨tn, htn, _⟩ := driftItemsFor_spec index p.2 item hitem
  rw [htn]
  rfl

/-- C8, witness for the quantified part on a concrete drifted report. -/
theorem c8_dangling_skipped_witness :
    (mapGet driftedIdx "REQ-A").isSome = true :=
  c8_dangling_skipped.1 driftedIdx
    ⟨"IMP-X", "implementation", "1.0.0",
      [⟨"edge", "REQ-A", "1.0.0", "1.1.0", Severity.minor⟩]⟩ (by decide)
    ⟨"edge", "REQ-A", "1.0.0", "1.1.0", Severity.minor⟩ (by decide)

/-- C9: buildNodeIndex maps every identifier to the last-loaded entity
bearing it (the lookup of any identifier equals the last element of the
loaded sequence filtered to that identifier), and when all loaded
identifiers are distinct the index has exactly one entry per loaded entity,
each reachable by its identifier. -/
theorem c9_index_lastwrite_complete :
    (∀ (s t r i : List LatticeNode) (k : String),
      mapGet (buildNodeIndex s t r i) k =
        ((s ++ t ++ r ++ i).filter (fun n => n.id == k)).getLast?) ∧
    (∀ (s t r i : List LatticeNode),
      ((s ++ t ++ r ++ i).map (fun n => n.id)).Nodup →
      (buildNodeIndex s t r i).length = (s ++ t ++ r ++ i).length ∧
      ∀ n ∈ s ++ t ++ r ++ i,
        mapGet (buildNodeIndex s t r i) n.id = Option.some n) := by
  have hget : ∀ (s t r i : List LatticeNode) (k : String),
      mapGet (buildNodeIndex s t r i) k =
        ((s ++ t ++ r ++ i).filter (fun n => n.id == k)).getLast? := by
    intro s t r i k
    unfold buildNodeIndex
    rw [build_foldl_get]
    cases ((s ++ t ++ r ++ i).filter (fun n => n.id == k)).getLast? with
    | none => rfl
    | some a => rfl
  refine ⟨hget, ?_⟩
  intro s t r i hnd
  constructor
  · unfold buildNodeIndex
    rw [build_foldl_length (s ++ t ++ r ++ i) [] hnd
      (fun n _ => rfl)]
    simp
  · intro n hn
    rw [hget s t r i n.id,
      filter_nodup_eq_single (s ++ t ++ r ++ i) n hnd hn]
    rfl

/-- C9, witness for the completeness part at two concrete entities with
distinct identifiers. -/
theorem c9_index_lastwrite_complete_witness :
    (buildNodeIndex [uniqX] [uniqY] [] []).length =
      ([uniqX] ++ [uniqY] ++ [] ++ []).length :=
  (c9_index_lastwrite_complete.2 [uniqX] [uniqY] [] [] (by decide)).1

/-- C10: under a well-formed index, every traversal result entry carries
exactly the entity the index maps its identifier to; concretely, a dangling
target identifier (GHOST) never appears as a result entry even though an
edge naming it is recorded on a visited node. -/
theorem c10_result_entries_from_index :
    (∀ (index : NodeIndex) (dir : TraversalDirection) (start : String)
      (d : Nat), WfIndex index →
      ∀ g ∈ traverseGraph start index dir d,
        mapGet index g.node.id = Option.some g.node) ∧
    (∀ g ∈ traverseGraph "S" danglingIdx TraversalDirection.both 3,
      g.node.id ≠ "GHOST") ∧
    (∃ g ∈ traverseGraph "S" danglingIdx TraversalDirection.both 3,
      ∃ e ∈ g.edges, e.target = "GHOST") := by
  refine ⟨?_, by decide, by decide⟩
  intro index dir start d hwf g hg
  rcases go_result_src index dir (d + 1) start ⟨[], []⟩ g hg with
    hmem | ⟨k, hk, _, _, _⟩
  · exact absurd hmem (List.not_mem_nil g)
  · rw [wf_mapGet hwf hk]
    exact hk

/-- C10, witness for the quantified part at a concrete result entry. -/
theorem c10_result_entries_from_index_witness :
    WfIndex cycIdx ∧
    mapGet cycIdx cycB.id = Option.some cycB :=
  ⟨by decide,
    c10_result_entries_from_index.1 cycIdx TraversalDirection.both "A" 10
      (by decide)
      ⟨cycB, [⟨"outgoing", "A", "1.0.0", "outgoing"⟩,
              ⟨"incoming", "A", "1.0.0", "incoming"⟩]⟩ (by decide)⟩

/-- C1, counterexample: an edge bound at 2.0.0 whose resolving target is
currently at 1.1.0 is classified minor by the detector, while the
specification's case analysis classifies it none (bound ahead of current),
so the classification is not the one the claim states. -/
theorem c1_counterexample :
    findDrift aheadIdx = [⟨"S", "implementation", "1.0.0",
      [⟨"edge", "T", "2.0.0", "1.1.0", Severity.minor⟩]⟩] ∧
    specClassify "2.0.0" "1.1.0" = Severity.none ∧
    Severity.minor ≠ Severity.none := by
  refine ⟨by decide, by decide, by decide⟩

/-- C1, amended: every drift item of every report carries a non-none
severity equal to the cascade actually computed from the decomposed bound
and current versions: major when current.major exceeds bound.major,
otherwise minor when current.minor exceeds bound.minor (equality of the
majors is not required), otherwise patch when current.patch exceeds
bound.patch, otherwise none - comparisons against a NaN component being
false. -/
theorem c1_amended_cascade :
    ∀ (index : NodeIndex), ∀ r ∈ findDrift index, ∀ item ∈ r.driftItems,
      item.severity ≠ Severity.none ∧
      item.severity = codeClassify (decomposeVersion item.boundVersion)
        (decomposeVersion item.currentVersion) := by
  intro index r hr item hitem
  obtain ⟨p, _, rfl, _⟩ := findDrift_reports index r hr
  obtain ⟨tn, _, _, hsev_eq, hne, _⟩ := driftItemsFor_spec index p.2 item hitem
  refine ⟨hne, ?_⟩
  have hcv : compareVersions (Option.some item.boundVersion)
      (Option.some item.currentVersion) ≠ Severity.none := by
    rw [← hsev_eq]; exact hne
  obtain ⟨a, b, ha, hb, hane, hbne⟩ := compareVersions_nonempty hcv
  have haeq : item.boundVersion = a := (Option.some.injEq _ _).mp ha
  have hbeq : item.currentVersion = b := (Option.some.injEq _ _).mp hb
  rw [hsev_eq, haeq, hbeq]
  exact compareVersions_eq_code hane hbne

/-- C1, witness for the amended cascade at the concrete bound-ahead
report. -/
theorem c1_amended_cascade_witness :
    Severity.minor ≠ Severity.none ∧
    Severity.minor = codeClassify (decomposeVersion "2.0.0")
      (decomposeVersion "1.1.0") :=
  c1_amended_cascade aheadIdx
    ⟨"S", "implementation", "1.0.0",
      [⟨"edge", "T", "2.0.0", "1.1.0", Severity.minor⟩]⟩ (by decide)
    ⟨"edge", "T", "2.0.0", "1.1.0", Severity.minor⟩ (by decide)

/-- C2, counterexample: a bound version with non-numeric major component
x.0.0 against current 2.0.0 yields none, whereas comparing it as if the
component were 0 (as the claim states, and as the specification's
decomposition does) yields major - so a non-numeric component is not
treated as 0. -/
theorem c2_counterexample :
    compareVersions (Option.some "x.0.0") (Option.some "2.0.0") =
      Severity.none ∧
    compareVersions (Option.some "0.0.0") (Option.some "2.0.0") =
      Severity.major ∧
    specClassify "x.0.0" "2.0.0" = Severity.major ∧
    Severity.none ≠ Severity.major := by
  refine ⟨by decide, by decide, by decide, by decide⟩

/-- C2, amended: components missing from a version string default to 0,
but a present non-numeric component becomes NaN rather than 0; every
comparison involving NaN is false, so a reported severity always reflects a
genuine numeric increase in its own component, and the comparison - a total
function - never fails. -/
theorem c2_amended_nan :
    decomposeVersion "1" = (Option.some 1, Option.some 0, Option.some 0) ∧
    decomposeVersion "x.2.3" =
      (Option.none, Option.some 2, Option.some 3) ∧
    (∀ a b : String,
      (compareVersions (Option.some a) (Option.some b) = Severity.major →
        ∃ x y : Int, (decomposeVersion a).1 = Option.some x ∧
          (decomposeVersion b).1 = Option.some y ∧ x < y) ∧
      (compareVersions (Option.some a) (Option.some b) = Severity.minor →
        ∃ x y : Int, (decomposeVersion a).2.1 = Option.some x ∧
          (decomposeVersion b).2.1 = Option.some y ∧ x < y) ∧
      (compareVersions (Option.some a) (Option.some b) = Severity.patch →
        ∃ x y : Int, (decomposeVersion a).2.2 = Option.some x ∧
          (decomposeVersion b).2.2 = Option.some y ∧ x < y)) := by
  refine ⟨by decide, by decide, ?_⟩
  intro a b
  have hnonempty : ∀ s : Severity,
      compareVersions (Option.some a) (Option.some b) = s →
      s ≠ Severity.none → a ≠ "" ∧ b ≠ "" := by
    intro s hs hne
    obtain ⟨a2, b2, ha, hb, hane, hbne⟩ := compareVersions_nonempty
      (by rw [hs]; exact hne)
    have : a = a2 := (Option.some.injEq _ _).mp ha
    have hb2 : b = b2 := (Option.some.injEq _ _).mp hb
    constructor
    · rw [this]; exact hane
    · rw [hb2]; exact hbne
  refine ⟨?_, ?_, ?_⟩
  · intro h
    obtain ⟨hane, hbne⟩ := hnonempty Severity.major h (by simp)
    rw [compareVersions_eq_code hane hbne] at h
    have := (codeClassify_major_iff _ _).mp h
    obtain ⟨x, y, hx, hy, hlt⟩ := jsGt_true_numeric this
    exact ⟨y, x, hy, hx, hlt⟩
  · intro h
    obtain ⟨hane, hbne⟩ := hnonempty Severity.minor h (by simp)
    rw [compareVersions_eq_code hane hbne] at h
    have := ((codeClassify_minor_iff _ _).mp h).2
    obtain ⟨x, y, hx, hy, hlt⟩ := jsGt_true_numeric this
    exact ⟨y, x, hy, hx, hlt⟩
  · intro h
    obtain ⟨hane, hbne⟩ := hnonempty Severity.patch h (by simp)
    rw [compareVersions_eq_code hane hbne] at h
    have := ((codeClassify_patch_iff _ _).mp h).2.2
    obtain ⟨x, y, hx, hy, hlt⟩ := jsGt_true_numeric this
    exact ⟨y, x, hy, hx, hlt⟩

/-- C2, witness applying the amended theorem at a concrete drifted pair. -/
theorem c2_amended_nan_witness :
    ∃ x y : Int, (decomposeVersion "1.0.0").1 = Option.some x ∧
      (decomposeVersion "2.0.0").1 = Option.some y ∧ x < y :=
  (c2_amended_nan.2.2 "1.0.0" "2.0.0").1 (by decide)

/-- C3, counterexample: two indices over the same nodes whose only
difference is the order of A's edge list (a permutation of the same edge
set, all other entries identical) yield different result membership under
the bounded traversal: with depth 2 downstream from A, the order C-then-B
reaches D while the order B-then-C does not. -/
theorem c3_counterexample :
    (getEdgeReferences ordA1).Perm (getEdgeReferences ordA2) ∧
    ordIdx1.map Prod.fst = ordIdx2.map Prod.fst ∧
    ordIdx1.drop 1 = ordIdx2.drop 1 ∧
    (∃ g ∈ traverseGraph "A" ordIdx2 TraversalDirection.downstream 2,
      g.node.id = "D") ∧
    (∀ g ∈ traverseGraph "A" ordIdx1 TraversalDirection.downstream 2,
      g.node.id ≠ "D") := by
  refine ⟨by decide, by decide, by decide, by decide, by decide⟩

/-- C3, amended: membership is order independent whenever the depth bound
does not prune, i.e. when maxDepth is at least the number of index entries:
then the result contains exactly the identifiers reachable from the start
that resolve in the index, so any two indices with the same hop relation
and the same resolvable identifiers - in particular any two processing
orders of the same edge sets - yield the same membership.  Under a binding
depth bound, membership can depend on processing order (see the
counterexample), because a node first reached near the bound blocks later
shallower visits from expanding beyond it. -/
theorem c3_amended_membership :
    (∀ (index : NodeIndex) (dir : TraversalDirection) (start : String)
      (d : Nat), WfIndex index → index.length ≤ d →
      ∀ x, (∃ g ∈ traverseGraph start index dir d, g.node.id = x) ↔
        (Reaches index dir start x ∧ (mapGet index x).isSome = true)) ∧
    (∀ (index1 index2 : NodeIndex) (dir : TraversalDirection)
      (start : String) (d : Nat),
      WfIndex index1 → WfIndex index2 →
      index1.length ≤ d → index2.length ≤ d →
      (∀ a b, Step index1 dir a b ↔ Step index2 dir a b) →
      (∀ k, (mapGet index1 k).isSome = (mapGet index2 k).isSome) →
      ∀ x, (∃ g ∈ traverseGraph start index1 dir d, g.node.id = x) ↔
           (∃ g ∈ traverseGraph start index2 dir d, g.node.id = x)) := by
  have hmain : ∀ (index : NodeIndex) (dir : TraversalDirection)
      (start : String) (d : Nat), WfIndex index → index.length ≤ d →
      ∀ x, (∃ g ∈ traverseGraph start index dir d, g.node.id = x) ↔
        (Reaches index dir start x ∧ (mapGet index x).isSome = true) := by
    intro index dir start d hwf hlen x
    have hpend : pending index (⟨[], []⟩ : TravState) < d + 1 := by
      unfold pending
      rw [show (⟨[], []⟩ : TravState).visited = ([] : List String) from rfl,
        show (([] : List String)).toFinset = (∅ : Finset String) from rfl,
        Finset.sdiff_empty]
      calc (keyset index).card ≤ (index.map Prod.fst).length :=
            List.toFinset_card_le _
        _ = index.length := List.length_map _ _
        _ ≤ d := hlen
        _ < d + 1 := Nat.lt_succ_self d
    have hcomp := go_complete index dir (d + 1) start ⟨[], []⟩ hpend
    have hreach_v : ∀ y, Reaches index dir start y →
        y ∈ (go index dir (d + 1) start ⟨[], []⟩).visited := by
      intro y hy
      unfold Reaches at hy
      induction hy with
      | refl => exact hcomp.1
      | tail _ hbc ih => exact hcomp.2 _ ih (List.not_mem_nil _) _ hbc
    constructor
    · rintro ⟨g, hg, hgx⟩
      rcases go_result_src index dir (d + 1) start ⟨[], []⟩ g hg with
        hmem | ⟨k, hk, _, _, hreach⟩
      · exact absurd hmem (List.not_mem_nil g)
      · rw [Nat.add_sub_cancel] at hreach
        have hkx : k = x := by rw [← hgx, wf_mapGet hwf hk]
        subst hkx
        exact ⟨reachesIn_to_reaches index dir d start k hreach,
          by rw [hk]; rfl⟩
    · rintro ⟨hreach, hsome⟩
      obtain ⟨node, hnode⟩ := Option.isSome_iff_exists.mp hsome
      have hres := go_visited_result index dir (d + 1) start ⟨[], []⟩ x node
        (hreach_v x hreach) (List.not_mem_nil x) hnode
      exact ⟨⟨node, nodeEdges index dir x node⟩, hres, wf_mapGet hwf hnode⟩
  refine ⟨hmain, ?_⟩
  intro index1 index2 dir start d hwf1 hwf2 hlen1 hlen2 hstep hres x
  have hstep_eq : Step index1 dir = Step index2 dir := by
    funext a b
    exact propext (hstep a b)
  rw [hmain index1 dir start d hwf1 hlen1 x,
    hmain index2 dir start d hwf2 hlen2 x]
  unfold Reaches
  rw [hstep_eq, hres x]

/-- C3, witness for the amended membership characterization on the concrete
cycle with a non-pruning depth bound. -/
theorem c3_amended_membership_witness :
    (∃ g ∈ traverseGraph "A" cycIdx TraversalDirection.both 10,
      g.node.id = "B") ↔
      (Reaches cycIdx TraversalDirection.both "A" "B" ∧
        (mapGet cycIdx "B").isSome = true) :=
  c3_amended_membership.1 cycIdx TraversalDirection.both "A" 10
    (by decide) (by decide) "B"

end Lattice
